import Mathlib

/-!
Shallow embedding of the icarus transaction batcher (Go, 2 source files:
main.go with TxManager.Run, and internal/rpc/rpc.go with the wallet
derivation, fee computation, batch construction and balance formatting).

External collaborators (the go-ethereum RPC client, the BIP-39/HD-wallet
library, the ECDSA signer) are modelled as an abstract environment `Env`
whose fields record, per call site, what the collaborator would answer.
Pure Go code is translated function by function; Go `uint64` arithmetic
carries an explicit `% 2^64`, Go `int` is `Int` with truncated division
(`Int.tdiv`), and Go `(value, error)` returns are `Except`.
-/

namespace Icarus

/-- Word size of Go `uint64` values (nonces, gas). -/
def U64 : Nat := 2 ^ 64

/-- Abstract environment: one field per external call the Go code makes.
Fields keyed by `Nat` give the collaborator's answer for the wallet index
(or derivation index) making the call, so distinct calls may observe
different chain state, as real RPC calls may. -/
structure Env where
  /-- `ethclient.DialContext` succeeds. -/
  dialOK : Bool
  /-- `client.NetworkID`: the chain id, or an error. -/
  networkId : Except Unit Nat
  /-- `bip39.IsMnemonicValid(mnemonic)` for the configured mnemonic. -/
  mnemonicValid : Bool
  /-- `hdwallet.NewFromMnemonic` succeeds. -/
  hdWalletOK : Bool
  /-- `hdwallet.ParseDerivationPath` succeeds at derivation index i. -/
  parsePathOK : Nat → Bool
  /-- `wallet.Derive` succeeds at derivation index i. -/
  deriveOK : Nat → Bool
  /-- `wallet.PrivateKey` succeeds at derivation index i. -/
  privKeyOK : Nat → Bool
  /-- The address the HD wallet derives at index i (abstracted). -/
  addressOf : Nat → Nat
  /-- The private key the HD wallet derives at index i (abstracted). -/
  privKeyOf : Nat → Nat
  /-- `client.BalanceAt` answer for wallet w. -/
  balance : Nat → Except Unit Nat
  /-- `client.PendingNonceAt` answer for wallet w. -/
  pendingNonce : Nat → Except Unit Nat
  /-- `client.EstimateGas` answer for wallet w. -/
  estimateGas : Nat → Except Unit Nat
  /-- `client.SuggestGasTipCap` answer for wallet w. -/
  suggestTip : Nat → Except Unit Nat
  /-- `client.HeaderByNumber` answer for wallet w: the header's base fee,
  `none` when the header carries no base fee (pre-EIP-1559 chain). -/
  baseFee : Nat → Except Unit (Option Nat)
  /-- `types.SignTx` succeeds for wallet w at a given nonce. -/
  signOK : Nat → Nat → Bool
  /-- `client.SendTransaction` succeeds for the k-th aggregated transaction. -/
  submitOK : Nat → Bool

/-- `types.DynamicFeeTx` as filled in by `SendEIP1559ETHTransfer`:
chain id (a possibly nil big.Int), nonce, tip cap, fee cap, gas limit,
recipient (the wallet's own address) and transferred value. -/
structure DynamicFeeTx where
  chainId : Option Nat
  nonce : Nat
  gasTipCap : Nat
  gasFeeCap : Nat
  gas : Nat
  toAddr : Nat
  value : Int
deriving DecidableEq

/-- `WalletInfo` from rpc.go: derivation index, derived address and
private key (client, mutex and counters carry no data we model). -/
structure WalletInfo where
  index : Nat
  address : Nat
  privKey : Nat
deriving DecidableEq

/-- One iteration of the derivation loop in
`DeriveEthereumWalletsFromMnemonic`: parse the path at index i, derive the
account, extract its private key; any failure aborts with an error. -/
def deriveOne (env : Env) (i : Nat) : Except String WalletInfo :=
  if ¬ env.parsePathOK i then .error "failed to parse derivation path"
  else if ¬ env.deriveOK i then .error "failed to derive account"
  else if ¬ env.privKeyOK i then .error "failed to get private key"
  else .ok ⟨i, env.addressOf i, env.privKeyOf i⟩

/-- The derivation loop of `DeriveEthereumWalletsFromMnemonic`: derive
`count` wallets starting at index `start`, aborting entirely on the first
failing index (no partial wallet set is returned). -/
def deriveRange (env : Env) (start : Nat) : Nat → Except String (List WalletInfo)
  | 0 => .ok []
  | n + 1 =>
    match deriveOne env start with
    | .error e => .error e
    | .ok w =>
      match deriveRange env (start + 1) n with
      | .error e => .error e
      | .ok ws => .ok (w :: ws)

/-- `DeriveEthereumWalletsFromMnemonic` (rpc.go): reject a non-positive
count, reject an invalid mnemonic, build the HD wallet, then derive
indices 0..count-1, aborting on any individual failure. -/
def DeriveEthereumWalletsFromMnemonic (env : Env) (count : Int) :
    Except String (List WalletInfo) :=
  if count ≤ 0 then .error "count must be > 0"
  else if ¬ env.mnemonicValid then .error "invalid mnemonic"
  else if ¬ env.hdWalletOK then .error "failed to create wallet from mnemonic"
  else deriveRange env 0 count.toNat

/-- `SendEIP1559ETHTransfer` (rpc.go): build a `DynamicFeeTx` for the
wallet at the given nonce, recipient the wallet's own address, and sign
it; the signing step may fail. -/
def SendEIP1559ETHTransfer (env : Env) (w : Nat) (chainId : Option Nat)
    (nonceIncrease tipCap maxFeeCap gasLimit : Nat) (value : Int) :
    Except Unit DynamicFeeTx :=
  if env.signOK w nonceIncrease then
    .ok ⟨chainId, nonceIncrease, tipCap, maxFeeCap, gasLimit,
         env.addressOf w, value⟩
  else .error ()

/-- `SendEIP1559ETHTransferInBatch` (rpc.go): fetch the wallet's pending
nonce, estimate gas for a self-transfer and add a 1000 buffer, fetch the
suggested tip cap and the latest header's base fee, compute
maxFeeCap = 2*baseFee + tipCap, then build `batch` transactions at nonces
pendingNonce + i (uint64 arithmetic); a transaction whose construction
fails is skipped, the rest of the batch continues. A header without a
base fee returns the nil error of the preceding call, so the caller sees
an empty successful result. -/
def SendEIP1559ETHTransferInBatch (env : Env) (w : Nat)
    (chainId : Option Nat) (batch : Int) : Except Unit (List DynamicFeeTx) :=
  match env.pendingNonce w with
  | .error e => .error e
  | .ok nonce =>
    match env.estimateGas w with
    | .error e => .error e
    | .ok g =>
      let gasLimit := (g + 1000) % U64
      match env.suggestTip w with
      | .error e => .error e
      | .ok tipCap =>
        match env.baseFee w with
        | .error e => .error e
        | .ok none => .ok []
        | .ok (some bf) =>
          let maxFeeCap := 2 * bf + tipCap
          .ok ((List.range batch.toNat).filterMap fun i =>
            match SendEIP1559ETHTransfer env w chainId ((nonce + i) % U64)
                tipCap maxFeeCap gasLimit 10000 with
            | .ok tx => some tx
            | .error _ => none)

/-- The scan in `trimTrailingZeros` that finds the index of the first
decimal point, or `none` when the string has no decimal point (the Go
loop leaves dot = -1). -/
def findDotIdx : List Char → Nat → Option Nat
  | [], _ => none
  | c :: rest, i => if c = '.' then some i else findDotIdx rest (i + 1)

/-- The backward scan of `trimTrailingZeros`: starting at index i, step
left while the index is right of the dot and the character is a zero;
returns the index where the scan stops. -/
def trimFromIdx (s : List Char) (dot : Nat) (i : Nat) : Nat :=
  if h : dot < i ∧ s.getD i ' ' = '0' then trimFromIdx s dot (i - 1)
  else i
termination_by i
decreasing_by exact Nat.sub_lt (Nat.lt_of_le_of_lt (Nat.zero_le dot) h.1) Nat.one_pos

/-- `trimTrailingZeros` (rpc.go), on the string's characters: find the
first decimal point (return the string unchanged if there is none), trim
trailing zeros back to it, and drop the decimal point itself when the
scan reached it (i.e. everything after it was zeros). -/
def trimTrailingZeros (s : List Char) : List Char :=
  match findDotIdx s 0 with
  | none => s
  | some dot =>
    let i := trimFromIdx s dot (s.length - 1)
    if i = dot then s.take dot else s.take (i + 1)

/-- Flag configuration handed to `TxManager` by main.go. -/
structure Config where
  walletsNumber : Int
  txNumber : Int
deriving DecidableEq

/-- Observable outcome of one `TxManager.Run`: whether the run aborted
(a panic), how many wallets were derived, the aggregated transaction
list, how many submissions were attempted, and the final counters. -/
structure RunOutcome where
  aborted : Bool
  walletsDerived : Nat
  txs : List DynamicFeeTx
  submissions : Nat
  success : Nat
  failed : Nat
deriving DecidableEq

/-- Outcome of a run that panicked before doing any work. -/
def RunOutcome.abortedRun : RunOutcome :=
  ⟨true, 0, [], 0, 0, 0⟩

/-- The broadcast loop's shared counters: fold the submission outcomes,
each outcome incrementing exactly one of (success, failed) under the
mutex. The fold order is the order in which the concurrent submission
goroutines acquire the lock. -/
def tally : List Bool → Nat → Nat → Nat × Nat
  | [], s, f => (s, f)
  | b :: rest, s, f =>
    if b then tally rest (s + 1) f else tally rest s (f + 1)

/-- The submission outcome of each aggregated transaction, in aggregation
order: `client.SendTransaction` succeeds or fails per transaction. -/
def submitOutcomes (env : Env) (n : Nat) : List Bool :=
  (List.range n).map env.submitOK

/-- `TxManager.Run` (main.go): compute batch = TxNumber / WalletsNumber
(Go truncated integer division; division by zero panics), dial the RPC
endpoint (panic on failure), fetch the chain id (on failure proceed with
a nil chain id), derive the wallets discarding any derivation error, let
every wallet build its batch (a builder whose call errors contributes
nothing), aggregate all batches, then submit every aggregated transaction
and tally successes and failures under the mutex. -/
def run (env : Env) (cfg : Config) : RunOutcome :=
  if cfg.walletsNumber = 0 then RunOutcome.abortedRun
  else if env.dialOK then
    let batch := Int.tdiv cfg.txNumber cfg.walletsNumber
    let chainId := env.networkId.toOption
    let wallets :=
      match DeriveEthereumWalletsFromMnemonic env cfg.walletsNumber with
      | .ok l => l
      | .error _ => []
    let txs := wallets.flatMap fun wlt =>
      match SendEIP1559ETHTransferInBatch env wlt.index chainId batch with
      | .ok l => l
      | .error _ => []
    let outs := submitOutcomes env txs.length
    { aborted := false
      walletsDerived := wallets.length
      txs := txs
      submissions := txs.length
      success := (tally outs 0 0).1
      failed := (tally outs 0 0).2 }
  else RunOutcome.abortedRun

/-- Environment in which every external call succeeds; used as the
concrete instance for witnesses. -/
def envAllOk : Env where
  dialOK := true
  networkId := .ok 1
  mnemonicValid := true
  hdWalletOK := true
  parsePathOK := fun _ => true
  deriveOK := fun _ => true
  privKeyOK := fun _ => true
  addressOf := fun i => i
  privKeyOf := fun i => i
  balance := fun _ => .ok 0
  pendingNonce := fun _ => .ok 7
  estimateGas := fun _ => .ok 21000
  suggestTip := fun _ => .ok 3
  baseFee := fun _ => .ok (some 10)
  signOK := fun _ _ => true
  submitOK := fun _ => true

/-- Folding the outcome list adds exactly one to one of the two counters
per outcome: the final counters sum to the initial sum plus the number of
outcomes. -/
theorem tally_spec (l : List Bool) (s f : Nat) :
    (tally l s f).1 + (tally l s f).2 = s + f + l.length := by
  induction l generalizing s f with
  | nil => simp [tally]
  | cons b rest ih =>
    cases b <;> simp only [tally, if_true, if_false, Bool.false_eq_true,
      List.length_cons] <;> rw [ih] <;> omega

/-- In every run, the final success and failure counters sum to the
number of aggregated transactions. -/
theorem run_counts (env : Env) (cfg : Config) :
    (run env cfg).success + (run env cfg).failed = (run env cfg).txs.length := by
  unfold run
  split
  · rfl
  · split
    · simp only []
      rw [tally_spec]
      simp [submitOutcomes]
    · rfl

/-- A `filterMap` whose function hits `some` on every element of the
list is a `map`. -/
theorem filterMap_eq_map_of_forall {α β : Type} (l : List α)
    (f : α → Option β) (g : α → β) (h : ∀ a ∈ l, f a = some (g a)) :
    l.filterMap f = l.map g := by
  induction l with
  | nil => rfl
  | cons x xs ih =>
    rw [List.filterMap_cons, h x (by simp), List.map_cons,
      ih fun a ha => h a (by simp [ha])]

/-- When the four chain queries of `SendEIP1559ETHTransferInBatch`
succeed, the call returns the transactions of the loop, skipping those
whose signing fails. -/
theorem sendBatch_ok (env : Env) (w : Nat) (cid : Option Nat) (batch : Int)
    (n g tip bf : Nat)
    (hn : env.pendingNonce w = .ok n) (hg : env.estimateGas w = .ok g)
    (ht : env.suggestTip w = .ok tip) (hb : env.baseFee w = .ok (some bf)) :
    SendEIP1559ETHTransferInBatch env w cid batch =
      .ok ((List.range batch.toNat).filterMap fun i =>
        match SendEIP1559ETHTransfer env w cid ((n + i) % U64) tip
            (2 * bf + tip) ((g + 1000) % U64) 10000 with
        | .ok tx => some tx
        | .error _ => none) := by
  simp [SendEIP1559ETHTransferInBatch, hn, hg, ht, hb]

/-- C1: for every wallet and batch size B, when the chain queries succeed
and no individual transaction construction fails, the batch built by
`SendEIP1559ETHTransferInBatch` assigns nonces exactly
pendingNonce, pendingNonce+1, ..., pendingNonce+B-1 — the fetched pending
nonce plus the loop index — a contiguous strictly increasing sequence
with no duplicates (the pending nonce is a uint64 and the sequence is
assumed not to wrap around 2^64). -/
theorem batch_nonces_contiguous (env : Env) (w : Nat) (cid : Option Nat)
    (B n g tip bf : Nat)
    (hn : env.pendingNonce w = .ok n) (hg : env.estimateGas w = .ok g)
    (ht : env.suggestTip w = .ok tip) (hb : env.baseFee w = .ok (some bf))
    (hsign : ∀ i, i < B → env.signOK w (n + i) = true)
    (hof : n + B ≤ U64) :
    ∃ txs, SendEIP1559ETHTransferInBatch env w cid (B : Int) = .ok txs ∧
      txs.map (fun tx => tx.nonce) = (List.range B).map (fun i => n + i) ∧
      (txs.map fun tx => tx.nonce).Pairwise (· < ·) ∧
      (txs.map fun tx => tx.nonce).Nodup := by
  have hmod : ∀ i, i < B → (n + i) % U64 = n + i := by
    intro i hi
    exact Nat.mod_eq_of_lt (Nat.lt_of_lt_of_le (by omega) hof)
  have hrw := sendBatch_ok env w cid (B : Int) n g tip bf hn hg ht hb
  rw [Int.toNat_natCast] at hrw
  have hfm : ((List.range B).filterMap fun i =>
      match SendEIP1559ETHTransfer env w cid ((n + i) % U64) tip
          (2 * bf + tip) ((g + 1000) % U64) 10000 with
      | .ok tx => some tx
      | .error _ => none) =
      (List.range B).map fun i =>
        (⟨cid, n + i, tip, 2 * bf + tip, (g + 1000) % U64,
          env.addressOf w, 10000⟩ : DynamicFeeTx) := by
    apply filterMap_eq_map_of_forall
    intro i hi
    rw [List.mem_range] at hi
    rw [hmod i hi]
    simp [SendEIP1559ETHTransfer, hsign i hi]
  rw [hfm] at hrw
  refine ⟨_, hrw, ?_, ?_, ?_⟩
  · rw [List.map_map]
    rfl
  · rw [List.map_map]
    have : (List.range B).Pairwise (· < ·) := List.pairwise_lt_range B
    exact (this.map _) fun x y hxy => by
      simpa using Nat.add_lt_add_left hxy n
  · rw [List.map_map]
    have : (List.range B).Pairwise (· < ·) := List.pairwise_lt_range B
    exact (this.map _) fun x y hxy => by
      simp only [Function.comp]
      omega

/-- Witness for C1 at a concrete environment: with pending nonce 7 and
batch size 3, the built nonces are [7, 8, 9]. -/
theorem batch_nonces_contiguous_witness :
    ∃ txs, SendEIP1559ETHTransferInBatch envAllOk 0 (some 1) (3 : Int) = .ok txs ∧
      txs.map (fun tx => tx.nonce) = [7, 8, 9] := by
  obtain ⟨txs, h1, h2, -, -⟩ :=
    batch_nonces_contiguous envAllOk 0 (some 1) 3 7 21000 3 10 rfl rfl rfl rfl
      (fun i _ => rfl) (by norm_num [U64])
  exact ⟨txs, h1, by rw [h2]; rfl⟩

/-- C2: in every run the final success and failure counters sum to
exactly the number of aggregated transactions, and this holds for any
order in which the concurrent submission goroutines acquire the mutex
(any permutation of the per-transaction outcomes). -/
theorem broadcast_counts_exact (env : Env) (cfg : Config) (outs : List Bool)
    (hperm : outs.Perm (submitOutcomes env (run env cfg).txs.length)) :
    (tally outs 0 0).1 + (tally outs 0 0).2 = (run env cfg).txs.length ∧
    (run env cfg).success + (run env cfg).failed = (run env cfg).txs.length := by
  constructor
  · rw [tally_spec, hperm.length_eq]
    simp [submitOutcomes]
  · exact run_counts env cfg

/-- Witness for C2 at a concrete run: 10 wallets, 100 transactions, all
submissions attempted, counters sum to the aggregated batch size. -/
theorem broadcast_counts_exact_witness :
    (run envAllOk ⟨10, 100⟩).success + (run envAllOk ⟨10, 100⟩).failed =
      (run envAllOk ⟨10, 100⟩).txs.length := by
  exact (broadcast_counts_exact envAllOk ⟨10, 100⟩
    (submitOutcomes envAllOk (run envAllOk ⟨10, 100⟩).txs.length)
    (List.Perm.refl _)).2

/-- C3: for every computed fee triple, the fee cap equals exactly
2*baseFee + tipCap (big.Int arithmetic, no overflow), hence the invariant
feeCap ≥ 2*baseFee + tipCap; and the gas limit equals the estimated gas
for the representative self-transfer plus the fixed margin 1000 (uint64
arithmetic, assumed not to wrap). -/
theorem fee_parameters_formula (env : Env) (w : Nat) (cid : Option Nat)
    (batch : Int) (n g tip bf : Nat)
    (hn : env.pendingNonce w = .ok n) (hg : env.estimateGas w = .ok g)
    (ht : env.suggestTip w = .ok tip) (hb : env.baseFee w = .ok (some bf))
    (hof : g + 1000 < U64) :
    ∀ txs, SendEIP1559ETHTransferInBatch env w cid batch = .ok txs →
      ∀ tx ∈ txs, tx.gasFeeCap = 2 * bf + tip ∧
        2 * bf + tip ≤ tx.gasFeeCap ∧
        tx.gasTipCap = tip ∧ tx.gas = g + 1000 := by
  intro txs htxs tx htx
  rw [sendBatch_ok env w cid batch n g tip bf hn hg ht hb] at htxs
  injection htxs with htxs
  subst htxs
  rw [List.mem_filterMap] at htx
  obtain ⟨i, -, hi⟩ := htx
  unfold SendEIP1559ETHTransfer at hi
  by_cases hc : env.signOK w ((n + i) % U64) = true
  · rw [if_pos hc] at hi
    injection hi with hi
    subst hi
    refine ⟨rfl, Nat.le_refl _, rfl, ?_⟩
    exact Nat.mod_eq_of_lt hof
  · rw [if_neg hc] at hi
    exact absurd hi (by simp)

/-- Witness for C3 at a concrete environment: base fee 10, tip 3,
estimated gas 21000 give fee cap 23 = 2*10 + 3 and gas limit 22000. -/
theorem fee_parameters_formula_witness :
    (⟨some 1, 7, 3, 23, 22000, 0, 10000⟩ : DynamicFeeTx).gasFeeCap = 2 * 10 + 3 ∧
    (⟨some 1, 7, 3, 23, 22000, 0, 10000⟩ : DynamicFeeTx).gas = 21000 + 1000 := by
  have h := fee_parameters_formula envAllOk 0 (some 1) 1 7 21000 3 10
    rfl rfl rfl rfl (by norm_num [U64])
    [⟨some 1, 7, 3, 23, 22000, 0, 10000⟩] (by rfl)
    ⟨some 1, 7, 3, 23, 22000, 0, 10000⟩ (by simp)
  exact ⟨h.1, h.2.2.2⟩

/-- A successful derivation loop returns exactly as many wallets as
requested. -/
theorem deriveRange_ok_length (env : Env) :
    ∀ count start l, deriveRange env start count = .ok l → l.length = count := by
  intro count
  induction count with
  | zero =>
    intro start l h
    injection h with h
    rw [← h]
    rfl
  | succ m ih =>
    intro start l h
    unfold deriveRange at h
    split at h
    · exact absurd h (by simp)
    · split at h
      · exact absurd h (by simp)
      · injection h with h
        rw [← h]
        simp only [List.length_cons]
        rw [ih _ _ (by assumption)]

/-- A successful derivation loop places at position i the wallet of
derivation index start + i, whose address is the HD-derived address at
that index. -/
theorem deriveRange_ok_get (env : Env) :
    ∀ count start l, deriveRange env start count = .ok l →
      ∀ i (hi : i < l.length),
        (l.get ⟨i, hi⟩).index = start + i ∧
        (l.get ⟨i, hi⟩).address = env.addressOf (start + i) := by
  intro count
  induction count with
  | zero =>
    intro start l h i hi
    injection h with h
    rw [← h] at hi
    exact absurd hi (by simp)
  | succ m ih =>
    intro start l h i hi
    unfold deriveRange at h
    split at h
    · exact absurd h (by simp)
    · rename_i w hw
      split at h
      · exact absurd h (by simp)
      · rename_i ws hws
        injection h with h
        subst h
        unfold deriveOne at hw
        split at hw
        · exact absurd hw (by simp)
        · split at hw
          · exact absurd hw (by simp)
          · split at hw
            · exact absurd hw (by simp)
            · injection hw with hw
              cases i with
              | zero => rw [← hw]; exact ⟨rfl, rfl⟩
              | succ j =>
                have := ih (start + 1) ws hws j (by simpa using hi)
                simpa [Nat.add_assoc, Nat.add_comm 1 j] using this

/-- C5: `DeriveEthereumWalletsFromMnemonic` is all-or-nothing and
deterministic: a successful call returns exactly `count` wallets, the
wallet at position i carries the address the HD wallet derives at index
i (so two calls with the same phrase and count produce identical address
lists in identical order — the embedding is a pure function of the
mnemonic-determined environment and the count), and any other successful
result coincides with this one. -/
theorem derive_all_or_nothing_deterministic (env : Env) (count : Int)
    (l : List WalletInfo)
    (h : DeriveEthereumWalletsFromMnemonic env count = .ok l) :
    0 < count ∧ l.length = count.toNat ∧
    (∀ i (hi : i < l.length), (l.get ⟨i, hi⟩).address = env.addressOf i) ∧
    (∀ lx, DeriveEthereumWalletsFromMnemonic env count = .ok lx → lx = l) := by
  unfold DeriveEthereumWalletsFromMnemonic at h
  split at h
  · exact absurd h (by simp)
  · split at h
    · exact absurd h (by simp)
    · split at h
      · exact absurd h (by simp)
      · rename_i hc _ _
        refine ⟨by omega, deriveRange_ok_length env _ _ _ h, ?_, ?_⟩
        · intro i hi
          have := (deriveRange_ok_get env _ _ _ h i hi).2
          simpa using this
        · intro lx hx
          unfold DeriveEthereumWalletsFromMnemonic at hx
          rw [if_neg hc] at hx
          rw [if_neg (by assumption)] at hx
          rw [if_neg (by assumption)] at hx
          rw [h] at hx
          injection hx with hx
          exact hx.symm

/-- Witness for C5: deriving 3 wallets in the all-ok environment yields
exactly 3 wallets whose first address is the derived address at index 0. -/
theorem derive_all_or_nothing_deterministic_witness :
    ∃ l, DeriveEthereumWalletsFromMnemonic envAllOk 3 = .ok l ∧
      l.length = 3 ∧ l.head? = some ⟨0, 0, 0⟩ := by
  have h := derive_all_or_nothing_deterministic envAllOk 3
    [⟨0, 0, 0⟩, ⟨1, 1, 1⟩, ⟨2, 2, 2⟩] (by rfl)
  exact ⟨[⟨0, 0, 0⟩, ⟨1, 1, 1⟩, ⟨2, 2, 2⟩], by rfl,
    by rw [h.2.1]; rfl, by rfl⟩

/-- An environment in which every external call the build phase makes
succeeds (nothing is said about the chain-id fetch or the submissions). -/
structure Env.Healthy (env : Env) : Prop where
  dial : env.dialOK = true
  mnemonic : env.mnemonicValid = true
  hdw : env.hdWalletOK = true
  parse : ∀ i, env.parsePathOK i = true
  derive : ∀ i, env.deriveOK i = true
  priv : ∀ i, env.privKeyOK i = true
  nonce : ∀ w, ∃ n, env.pendingNonce w = .ok n
  gas : ∀ w, ∃ g, env.estimateGas w = .ok g
  tip : ∀ w, ∃ t, env.suggestTip w = .ok t
  base : ∀ w, ∃ b, env.baseFee w = .ok (some b)
  sign : ∀ w m, env.signOK w m = true

/-- The all-ok environment is healthy. -/
theorem envAllOk_healthy : envAllOk.Healthy :=
  ⟨rfl, rfl, rfl, fun _ => rfl, fun _ => rfl, fun _ => rfl,
   fun _ => ⟨7, rfl⟩, fun _ => ⟨21000, rfl⟩, fun _ => ⟨3, rfl⟩,
   fun _ => ⟨10, rfl⟩, fun _ _ => rfl⟩

/-- The wallet list a fully successful derivation loop produces. -/
def walletList (env : Env) (start : Nat) : Nat → List WalletInfo
  | 0 => []
  | n + 1 =>
    ⟨start, env.addressOf start, env.privKeyOf start⟩ ::
      walletList env (start + 1) n

/-- The fully successful wallet list has the requested length. -/
theorem walletList_length (env : Env) :
    ∀ count start, (walletList env start count).length = count := by
  intro count
  induction count with
  | zero => intro start; rfl
  | succ m ih =>
    intro start
    simp only [walletList, List.length_cons, ih]

/-- When all per-index derivation steps succeed, the derivation loop
returns the full wallet list. -/
theorem deriveRange_all_ok (env : Env)
    (hp : ∀ i, env.parsePathOK i = true)
    (hd : ∀ i, env.deriveOK i = true)
    (hk : ∀ i, env.privKeyOK i = true) :
    ∀ count start, deriveRange env start count = .ok (walletList env start count) := by
  intro count
  induction count with
  | zero => intro start; rfl
  | succ m ih =>
    intro start
    unfold deriveRange deriveOne
    rw [hp start, hd start, hk start]
    simp only [not_true, if_false, Bool.not_true, false_and, ite_false]
    rw [ih (start + 1)]
    rfl

/-- A `flatMap` whose function yields lists of one common length on every
element multiplies that length by the list length. -/
theorem length_flatMap_const {α β : Type} (l : List α) (f : α → List β)
    (c : Nat) (h : ∀ a ∈ l, (f a).length = c) :
    (l.flatMap f).length = l.length * c := by
  induction l with
  | nil => simp
  | cons x xs ih =>
    rw [List.flatMap_cons, List.length_append, h x (by simp),
      ih fun a ha => h a (by simp [ha]), List.length_cons]
    ring

/-- In a healthy environment a wallet's batch call succeeds and builds
exactly `batch` transactions (clamped at zero for a negative batch). -/
theorem sendBatch_healthy_length (env : Env) (h : env.Healthy) (w : Nat)
    (cid : Option Nat) (batch : Int) :
    ∃ l, SendEIP1559ETHTransferInBatch env w cid batch = .ok l ∧
      l.length = batch.toNat := by
  obtain ⟨n, hn⟩ := h.nonce w
  obtain ⟨g, hg⟩ := h.gas w
  obtain ⟨t, ht⟩ := h.tip w
  obtain ⟨b, hb⟩ := h.base w
  refine ⟨_, sendBatch_ok env w cid batch n g t b hn hg ht hb, ?_⟩
  rw [filterMap_eq_map_of_forall _ _
    (fun i => (⟨cid, (n + i) % U64, t, 2 * b + t, (g + 1000) % U64,
      env.addressOf w, 10000⟩ : DynamicFeeTx))
    (fun i _ => by simp [SendEIP1559ETHTransfer, h.sign w _])]
  rw [List.length_map, List.length_range]

/-- In a healthy environment with a nonzero wallet count, the run does
not abort, derives exactly the configured number of wallets, aggregates
walletsNumber * batch transactions, and attempts one submission per
aggregated transaction. -/
theorem run_success_shape (env : Env) (cfg : Config) (h : env.Healthy)
    (hW : 0 < cfg.walletsNumber) :
    (run env cfg).aborted = false ∧
    (run env cfg).walletsDerived = cfg.walletsNumber.toNat ∧
    (run env cfg).txs.length =
      cfg.walletsNumber.toNat * (Int.tdiv cfg.txNumber cfg.walletsNumber).toNat ∧
    (run env cfg).submissions = (run env cfg).txs.length := by
  have hW0 : ¬ (cfg.walletsNumber = 0) := by omega
  have hderive : DeriveEthereumWalletsFromMnemonic env cfg.walletsNumber =
      .ok (walletList env 0 cfg.walletsNumber.toNat) := by
    unfold DeriveEthereumWalletsFromMnemonic
    rw [if_neg (by omega), h.mnemonic, h.hdw]
    simp only [not_true, Bool.not_true, ite_false, if_false]
    exact deriveRange_all_ok env h.parse h.derive h.priv _ 0
  have hlen : ∀ wlt ∈ walletList env 0 cfg.walletsNumber.toNat,
      (match SendEIP1559ETHTransferInBatch env wlt.index
          env.networkId.toOption (Int.tdiv cfg.txNumber cfg.walletsNumber) with
        | .ok l => l
        | .error _ => []).length =
      (Int.tdiv cfg.txNumber cfg.walletsNumber).toNat := by
    intro wlt _
    obtain ⟨l, hl, hlen⟩ := sendBatch_healthy_length env h wlt.index
      env.networkId.toOption (Int.tdiv cfg.txNumber cfg.walletsNumber)
    rw [hl]
    exact hlen
  unfold run
  rw [if_neg hW0, if_pos h.dial]
  simp only [hderive]
  refine ⟨trivial, walletList_length env _ 0, ?_, trivial⟩
  rw [length_flatMap_const _ _ _ hlen, walletList_length env _ 0]

/-- C4: for every TxNumber T >= 0 and WalletsNumber W > 0, in a healthy
environment each wallet's batch size is the integer quotient T / W
(remainder transactions dropped), the total number of transactions built
across all wallets is W * (T / W), and W * (T / W) <= T. -/
theorem total_built_truncated (env : Env) (cfg : Config) (h : env.Healthy)
    (hW : 0 < cfg.walletsNumber) (hT : 0 ≤ cfg.txNumber) :
    (run env cfg).txs.length =
      cfg.walletsNumber.toNat * (Int.tdiv cfg.txNumber cfg.walletsNumber).toNat ∧
    cfg.walletsNumber * Int.tdiv cfg.txNumber cfg.walletsNumber ≤ cfg.txNumber ∧
    (Int.tdiv cfg.txNumber cfg.walletsNumber).toNat =
      cfg.txNumber.toNat / cfg.walletsNumber.toNat := by
  obtain ⟨w, hw⟩ := Int.eq_ofNat_of_zero_le hW.le
  obtain ⟨t, ht⟩ := Int.eq_ofNat_of_zero_le hT
  have htdiv : Int.tdiv cfg.txNumber cfg.walletsNumber = ((t / w : Nat) : Int) := by
    rw [hw, ht]
    rfl
  refine ⟨(run_success_shape env cfg h hW).2.2.1, ?_, ?_⟩
  · rw [htdiv, hw, ht]
    have : w * (t / w) ≤ t := by
      calc w * (t / w) = t / w * w := Nat.mul_comm _ _
        _ ≤ t := Nat.div_mul_le_self t w
    exact_mod_cast this
  · rw [htdiv, hw, ht, Int.toNat_natCast, Int.toNat_natCast, Int.toNat_natCast]

/-- Witness for C4: with 10 wallets and 105 transactions the batch size
per wallet is 10, the run builds 100 transactions, and 10 * 10 <= 105
(five transactions are never built). -/
theorem total_built_truncated_witness :
    (run envAllOk ⟨10, 105⟩).txs.length = 100 ∧
    (10 : Int) * Int.tdiv 105 10 ≤ 105 ∧
    (Int.tdiv (105 : Int) 10).toNat = 10 := by
  have h := total_built_truncated envAllOk ⟨10, 105⟩ envAllOk_healthy
    (by norm_num) (by norm_num)
  refine ⟨?_, h.2.1, by decide⟩
  rw [h.1]
  decide

/-- C6 counterexample: with an invalid seed phrase (and dial succeeding)
the run does not abort: the derivation error is discarded, the wallet
list is empty, and the run completes with zero transactions — the claim
that the run aborts is false on the code. -/
def envC6 : Env := { envAllOk with mnemonicValid := false }

/-- C6 counterexample theorem: the concrete run with an invalid mnemonic
reaches normal completion (aborted = false) rather than aborting. -/
theorem config_error_not_aborting_counterexample :
    run envC6 ⟨10, 100⟩ = ⟨false, 0, [], 0, 0, 0⟩ ∧
    (run envC6 ⟨10, 100⟩).aborted = false := by
  exact ⟨by rfl, by rfl⟩

/-- C6 amended: for an invalid seed phrase or a negative wallet count,
no batches are built and no submissions occur, but the run does not
abort: `TxManager.Run` discards the derivation error and completes
normally with zero wallets (a wallet count of exactly zero aborts
instead, by the division panic before any work). -/
theorem config_error_swallowed (env : Env) (cfg : Config)
    (hdial : env.dialOK = true) (hW : cfg.walletsNumber ≠ 0)
    (hbad : env.mnemonicValid = false ∨ cfg.walletsNumber < 0) :
    run env cfg = ⟨false, 0, [], 0, 0, 0⟩ := by
  have hderive : ∀ l, DeriveEthereumWalletsFromMnemonic env cfg.walletsNumber ≠ .ok l := by
    intro l hx
    unfold DeriveEthereumWalletsFromMnemonic at hx
    by_cases hc : cfg.walletsNumber ≤ 0
    · rw [if_pos hc] at hx
      exact absurd hx (by simp)
    · rw [if_neg hc] at hx
      rcases hbad with hm | hneg
      · rw [hm] at hx
        exact absurd hx (by simp)
      · omega
  unfold run
  rw [if_neg hW, if_pos hdial]
  rcases hx : DeriveEthereumWalletsFromMnemonic env cfg.walletsNumber with e | l
  · rfl
  · exact absurd hx (hderive l)

/-- Witness for the amended C6 at a negative wallet count: the run with
wallets = -5 completes with no wallets, no transactions and no
submissions, without aborting. -/
theorem config_error_swallowed_witness :
    run envAllOk ⟨-5, 100⟩ = ⟨false, 0, [], 0, 0, 0⟩ :=
  config_error_swallowed envAllOk ⟨-5, 100⟩ rfl (by decide) (Or.inr (by decide))

/-- C7 counterexample environment: the RPC's suggested tip differs
between the two wallets' builder calls, as separate RPC calls may. -/
def envC7 : Env := { envAllOk with suggestTip := fun w => .ok (w + 1) }

/-- C7 counterexample theorem: in one run, the transactions built by
wallet 0 and wallet 1 carry different fee caps (21 and 22), so the fee
triple is not a single value computed once per run and shared by every
wallet's builder — it is re-derived per wallet. -/
theorem fee_params_not_shared_counterexample :
    ((run envC7 ⟨2, 2⟩).txs.map fun tx => tx.gasFeeCap) = [21, 22] ∧
    (21 : Nat) ≠ 22 := by
  exact ⟨by rfl, by decide⟩

/-- C7 amended: the fee parameters are computed once per wallet batch —
each `SendEIP1559ETHTransferInBatch` call fetches the chain state once,
before its loop, and every transaction inside that wallet's batch
carries that same (tipCap, feeCap, gasLimit) triple, read-only. -/
theorem fee_params_per_wallet_batch (env : Env) (w : Nat) (cid : Option Nat)
    (batch : Int) (n g tip bf : Nat)
    (hn : env.pendingNonce w = .ok n) (hg : env.estimateGas w = .ok g)
    (ht : env.suggestTip w = .ok tip) (hb : env.baseFee w = .ok (some bf)) :
    ∀ txs, SendEIP1559ETHTransferInBatch env w cid batch = .ok txs →
      ∀ tx ∈ txs, tx.gasTipCap = tip ∧ tx.gasFeeCap = 2 * bf + tip ∧
        tx.gas = (g + 1000) % U64 := by
  intro txs htxs tx htx
  rw [sendBatch_ok env w cid batch n g tip bf hn hg ht hb] at htxs
  injection htxs with htxs
  subst htxs
  rw [List.mem_filterMap] at htx
  obtain ⟨i, -, hi⟩ := htx
  unfold SendEIP1559ETHTransfer at hi
  by_cases hc : env.signOK w ((n + i) % U64) = true
  · rw [if_pos hc] at hi
    injection hi with hi
    subst hi
    exact ⟨rfl, rfl, rfl⟩
  · rw [if_neg hc] at hi
    exact absurd hi (by simp)

/-- Witness for the amended C7: in wallet 0's batch of size 2 under
`envC7`, both transactions carry tip 1, fee cap 21 and the same gas. -/
theorem fee_params_per_wallet_batch_witness :
    (⟨some 1, 7, 1, 21, 22000, 0, 10000⟩ : DynamicFeeTx).gasTipCap = 1 ∧
    (⟨some 1, 7, 1, 21, 22000, 0, 10000⟩ : DynamicFeeTx).gasFeeCap = 2 * 10 + 1 := by
  have h := fee_params_per_wallet_batch envC7 0 (some 1) 1 7 21000 1 10
    rfl rfl rfl rfl [⟨some 1, 7, 1, 21, 22000, 0, 10000⟩] (by rfl)
    ⟨some 1, 7, 1, 21, 22000, 0, 10000⟩ (by simp)
  exact ⟨h.1, h.2.1⟩

/-- C8: when the initial dial fails the run aborts (the Go code panics)
and performs no further work: no wallets are derived, no transactions
are built, and no submissions occur. -/
theorem dial_failure_aborts (env : Env) (cfg : Config)
    (hdial : env.dialOK = false) :
    run env cfg = RunOutcome.abortedRun ∧
    (run env cfg).walletsDerived = 0 ∧
    (run env cfg).txs = [] ∧
    (run env cfg).submissions = 0 := by
  have hrun : run env cfg = RunOutcome.abortedRun := by
    unfold run
    split
    · rfl
    · rw [hdial]
      simp
  exact ⟨hrun, by rw [hrun]; rfl, by rw [hrun]; rfl, by rw [hrun]; rfl⟩

/-- C8 witness environment: the dial fails. -/
def envDialFail : Env := { envAllOk with dialOK := false }

/-- Witness for C8 at a concrete environment whose dial fails. -/
theorem dial_failure_aborts_witness :
    run envDialFail ⟨10, 100⟩ = RunOutcome.abortedRun :=
  (dial_failure_aborts envDialFail ⟨10, 100⟩ rfl).1

/-- C9: when the dial succeeds but the chain-id fetch fails, the run
proceeds (the failure is only logged): in an otherwise healthy
environment all wallets are derived, every batch is built, and one
submission is attempted per aggregated transaction. -/
theorem chainid_failure_nonfatal (env : Env) (cfg : Config) (h : env.Healthy)
    (_hcid : env.networkId = .error ()) (hW : 0 < cfg.walletsNumber) :
    (run env cfg).aborted = false ∧
    (run env cfg).walletsDerived = cfg.walletsNumber.toNat ∧
    (run env cfg).txs.length =
      cfg.walletsNumber.toNat * (Int.tdiv cfg.txNumber cfg.walletsNumber).toNat ∧
    (run env cfg).submissions = (run env cfg).txs.length :=
  run_success_shape env cfg h hW

/-- C9 witness environment: healthy except that the chain-id fetch
errors. -/
def envNoChainId : Env := { envAllOk with networkId := .error () }

/-- The chain-id-failing environment is otherwise healthy. -/
theorem envNoChainId_healthy : envNoChainId.Healthy :=
  ⟨rfl, rfl, rfl, fun _ => rfl, fun _ => rfl, fun _ => rfl,
   fun _ => ⟨7, rfl⟩, fun _ => ⟨21000, rfl⟩, fun _ => ⟨3, rfl⟩,
   fun _ => ⟨10, rfl⟩, fun _ _ => rfl⟩

/-- Witness for C9: with a failing chain-id fetch, 2 wallets and 4
transactions, the run completes, derives both wallets and builds 4
transactions. -/
theorem chainid_failure_nonfatal_witness :
    (run envNoChainId ⟨2, 4⟩).aborted = false ∧
    (run envNoChainId ⟨2, 4⟩).walletsDerived = 2 ∧
    (run envNoChainId ⟨2, 4⟩).txs.length = 4 := by
  have h := chainid_failure_nonfatal envNoChainId ⟨2, 4⟩ envNoChainId_healthy
    rfl (by norm_num)
  refine ⟨h.1, by rw [h.2.1]; rfl, by rw [h.2.2.1]; rfl⟩

/-- A string without a decimal point makes the dot scan return none. -/
theorem findDotIdx_none (s : List Char) (h : '.' ∉ s) :
    ∀ acc, findDotIdx s acc = none := by
  induction s with
  | nil => intro _; rfl
  | cons c rest ih =>
    intro acc
    have hc : ¬ (c = '.') := fun hcc => h (by simp [hcc])
    rw [findDotIdx, if_neg hc]
    exact ih (fun hm => h (by simp [hm])) (acc + 1)

/-- The dot scan finds the first decimal point: on a prefix without a
dot followed by a dot, it returns the prefix length (plus accumulator). -/
theorem findDotIdx_dot (a f : List Char) (ha : '.' ∉ a) :
    ∀ acc, findDotIdx (a ++ '.' :: f) acc = some (acc + a.length) := by
  induction a with
  | nil => intro acc; simp [findDotIdx]
  | cons c a ih =>
    intro acc
    have hc : ¬ (c = '.') := fun hcc => ha (by simp [hcc])
    rw [List.cons_append, findDotIdx, if_neg hc,
      ih (fun hm => ha (by simp [hm])) (acc + 1)]
    exact congrArg some (by simp only [List.length_cons]; omega)

/-- Every in-range position of a replicate of zeros holds a zero. -/
theorem getD_replicate_zero (z : Nat) :
    ∀ j, j < z → (List.replicate z '0').getD j ' ' = '0' := by
  induction z with
  | zero => intro j hj; exact absurd hj (by omega)
  | succ m ih =>
    intro j hj
    cases j with
    | zero => rfl
    | succ i => exact ih i (by omega)

/-- The backward scan stops exactly at the rightmost position k that is
not a zero (or is the dot), when every position strictly between k and
the start index holds a zero. -/
theorem trimFromIdx_stop_at (s : List Char) (dot k : Nat) (hdk : dot ≤ k)
    (hstop : s.getD k ' ' ≠ '0') :
    ∀ m, (∀ j, k < j → j ≤ k + m → s.getD j ' ' = '0') →
      trimFromIdx s dot (k + m) = k := by
  intro m
  induction m with
  | zero =>
    intro _
    rw [Nat.add_zero, trimFromIdx, dif_neg (fun hc => hstop hc.2)]
  | succ m ih =>
    intro hz
    rw [trimFromIdx, dif_pos ⟨by omega, hz (k + (m + 1)) (by omega) (by omega)⟩]
    have harith : k + (m + 1) - 1 = k + m := by omega
    rw [harith]
    exact ih fun j h1 h2 => hz j h1 (by omega)

/-- C10: on any formatted balance string whose fractional part is g
followed by z trailing zeros (g not itself ending in a zero),
`trimTrailingZeros` removes all the trailing zeros, and removes the
decimal point too when the fractional part is entirely zeros; a string
with no decimal point is returned unchanged. -/
theorem trim_trailing_zeros_spec :
    (∀ (a g : List Char) (z : Nat), '.' ∉ a →
      (∀ h : g ≠ [], g.getLast h ≠ '0') →
      trimTrailingZeros (a ++ '.' :: (g ++ List.replicate z '0')) =
        if g = [] then a else a ++ '.' :: g) ∧
    (∀ s, '.' ∉ s → trimTrailingZeros s = s) := by
  constructor
  · intro a g z ha hg
    have hdot : findDotIdx (a ++ '.' :: (g ++ List.replicate z '0')) 0 =
        some a.length := by
      simpa using findDotIdx_dot a (g ++ List.replicate z '0') ha 0
    unfold trimTrailingZeros
    simp only [hdot]
    cases g with
    | nil =>
      simp only [List.nil_append, if_pos rfl]
      have hstop : (a ++ '.' :: List.replicate z '0').getD a.length ' ' ≠ '0' := by
        rw [List.getD_append_right _ _ _ _ (Nat.le_refl _), Nat.sub_self,
          List.getD_cons_zero]
        decide
      have hz0 : ∀ j, a.length < j → j ≤ a.length + z →
          (a ++ '.' :: List.replicate z '0').getD j ' ' = '0' := by
        intro j h1 h2
        rw [List.getD_append_right _ _ _ _ (by omega)]
        have hj : j - a.length = (j - a.length - 1) + 1 := by omega
        rw [hj, List.getD_cons_succ]
        exact getD_replicate_zero z _ (by omega)
      have hL : (a ++ '.' :: List.replicate z '0').length - 1 = a.length + z := by
        simp only [List.length_append, List.length_cons, List.length_replicate]
        omega
      rw [hL, trimFromIdx_stop_at _ a.length a.length (Nat.le_refl _) hstop z hz0,
        if_pos rfl]
      exact List.take_left a ('.' :: List.replicate z '0')
    | cons g0 gr =>
      have hsplit : a ++ '.' :: ((g0 :: gr) ++ List.replicate z '0') =
          (a ++ '.' :: (g0 :: gr)) ++ List.replicate z '0' := by
        simp
      have hlast : (g0 :: gr).getD gr.length ' ' = (g0 :: gr).getLast (by simp) := by
        rw [List.getD_eq_getElem _ _ (by simp)]
        exact (List.getLast_eq_getElem _ (by simp)).symm
      have hstop : (a ++ '.' :: ((g0 :: gr) ++ List.replicate z '0')).getD
          (a.length + gr.length + 1) ' ' ≠ '0' := by
        rw [List.getD_append_right _ _ _ _ (by omega)]
        have hidx : a.length + gr.length + 1 - a.length = gr.length + 1 := by omega
        rw [hidx, List.getD_cons_succ, List.getD_append _ _ _ _ (by simp), hlast]
        exact hg (by simp)
      have hz0 : ∀ j, a.length + gr.length + 1 < j →
          j ≤ a.length + gr.length + 1 + z →
          (a ++ '.' :: ((g0 :: gr) ++ List.replicate z '0')).getD j ' ' = '0' := by
        intro j h1 h2
        rw [List.getD_append_right _ _ _ _ (by omega)]
        have hj : j - a.length = (j - a.length - 1) + 1 := by omega
        rw [hj, List.getD_cons_succ,
          List.getD_append_right _ _ _ _ (by simp; omega)]
        apply getD_replicate_zero
        simp only [List.length_cons]
        omega
      have hL : (a ++ '.' :: ((g0 :: gr) ++ List.replicate z '0')).length - 1 =
          a.length + gr.length + 1 + z := by
        simp only [List.length_append, List.length_cons, List.length_replicate]
        omega
      rw [hL, trimFromIdx_stop_at _ a.length (a.length + gr.length + 1)
        (by omega) hstop z hz0, if_neg (by omega), if_neg (by simp)]
      rw [hsplit]
      have hPlen : a.length + gr.length + 1 + 1 =
          (a ++ '.' :: (g0 :: gr)).length := by
        simp only [List.length_append, List.length_cons]
        omega
      rw [hPlen]
      exact List.take_left _ _
  · intro s h
    unfold trimTrailingZeros
    rw [findDotIdx_none s h 0]

/-- Witness for C10: the two documented examples and a dot-free string —
trimming turns the characters of 1.230000000000000000 into those of
1.23, those of 2.000000000000000000 into 2, and leaves 42 unchanged. -/
theorem trim_trailing_zeros_spec_witness :
    trimTrailingZeros (['1'] ++ '.' :: (['2', '3'] ++ List.replicate 16 '0')) =
      ['1', '.', '2', '3'] ∧
    trimTrailingZeros (['2'] ++ '.' :: ([] ++ List.replicate 18 '0')) = ['2'] ∧
    trimTrailingZeros ['4', '2'] = ['4', '2'] := by
  refine ⟨?_, ?_, ?_⟩
  · have h := trim_trailing_zeros_spec.1 ['1'] ['2', '3'] 16 (by decide)
      (fun _ => (by decide : ('3' : Char) ≠ '0'))
    rw [h]
    rfl
  · have h := trim_trailing_zeros_spec.1 ['2'] [] 18 (by decide)
      (fun hc => absurd rfl hc)
    rw [h]
    rfl
  · exact trim_trailing_zeros_spec.2 ['4', '2'] (by decide)

end Icarus
